import Mathlib

/-!
# BB84 quantum key distribution simulator — verification development

Shallow embedding of `bb88.py`: a BB84 protocol simulation built on a
single-qubit circuit simulator (gates X and H applied to |0⟩, then a
projective measurement in the computational basis).

All amplitudes occurring in the program lie in ℤ[1/√2]; we represent a
state amplitude as an element `a + b·√2` of ℤ[√2] (an integer pair)
together with a per-state scaling exponent `m` meaning division by √2^m,
which keeps every definition computable and kernel-evaluable.  Randomness
(numpy draws, the simulator's shot sampling for non-deterministic
measurements, and the check-subset sampling) is passed in explicitly as
oracle arguments.
-/

namespace BB84

/-- The element `a + b·√2` of the ring ℤ[√2].  All amplitudes this program
produces are elements of ℤ[√2] divided by a power of √2; the power is
tracked separately in `Qstate.m`, so the components stay integers and every
definition kernel-evaluates. -/
structure Amp where
  a : ℤ
  b : ℤ
deriving DecidableEq, Repr

def Amp.add (x y : Amp) : Amp := ⟨x.a + y.a, x.b + y.b⟩

def Amp.sub (x y : Amp) : Amp := ⟨x.a - y.a, x.b - y.b⟩

/-- Squared norm (the amplitudes here are real):
`(a + b√2)² = (a² + 2b²) + (2ab)√2`. -/
def Amp.normSq (x : Amp) : Amp := ⟨x.a ^ 2 + 2 * x.b ^ 2, 2 * x.a * x.b⟩

/-- Interpretation of an `Amp` as the real number it denotes. -/
noncomputable def Amp.toReal (x : Amp) : ℝ := (x.a : ℝ) + (x.b : ℝ) * Real.sqrt 2

/-- `Amp.normSq` really is the square of the denoted real number. -/
theorem Amp.toReal_normSq (x : Amp) : (x.normSq).toReal = x.toReal ^ 2 := by
  simp only [Amp.toReal, Amp.normSq]
  ring_nf
  rw [Real.sq_sqrt (by norm_num : (2:ℝ) ≥ 0)]
  push_cast
  ring

/-- The representation is faithful: distinct `Amp`s denote distinct reals
(by irrationality of √2). -/
theorem Amp.toReal_injective : Function.Injective Amp.toReal := by
  intro x y h
  simp only [Amp.toReal] at h
  by_cases hb : x.b = y.b
  · have ha : (x.a : ℝ) = y.a := by
      rw [hb] at h; linarith
    cases x; cases y
    simp_all [Int.cast_injective ha]
  · exfalso
    have hb' : (x.b : ℝ) - y.b ≠ 0 := by
      intro h0
      exact hb (Int.cast_injective (by linarith : (x.b : ℝ) = y.b))
    have : Real.sqrt 2 = ((y.a - x.a : ℤ) : ℝ) / ((x.b - y.b : ℤ) : ℝ) := by
      push_cast
      field_simp
      nlinarith [h]
    have : Real.sqrt 2 = (((y.a - x.a : ℤ) : ℚ) / ((x.b - y.b : ℤ) : ℚ) : ℚ) := by
      rw [this]; push_cast; ring
    exact irrational_sqrt_two ⟨_, this.symm⟩

/-- State of the single qubit: the physical amplitude of |0⟩ is
`c0.toReal / √2 ^ m` and of |1⟩ is `c1.toReal / √2 ^ m`; each Hadamard
gate increments the scaling exponent `m` instead of dividing by √2. -/
structure Qstate where
  c0 : Amp
  c1 : Amp
  m : ℕ
deriving DecidableEq, Repr

/-- The initial state |0⟩ of `QuantumCircuit(1, 1)`. -/
def ket0 : Qstate := ⟨⟨1, 0⟩, ⟨0, 0⟩, 0⟩

/-- The gates the program uses: `qc.x(0)` and `qc.h(0)`. -/
inductive Gate
  | X
  | H
deriving DecidableEq, Repr

def applyGate : Gate → Qstate → Qstate
  | .X, s => ⟨s.c1, s.c0, s.m⟩
  | .H, s => ⟨s.c0.add s.c1, s.c0.sub s.c1, s.m + 1⟩

/-- Run a gate list on the initial state |0⟩. -/
def runCircuit (qc : List Gate) : Qstate :=
  qc.foldl (fun s g => applyGate g s) ket0

/-- Numerator of the Born probability of measuring outcome 1: the
probability itself is `(prob_one_num s).toReal / 2 ^ s.m`. -/
def prob_one_num (s : Qstate) : Amp := s.c1.normSq

/-- Numerator of the Born probability of measuring outcome 0. -/
def prob_zero_num (s : Qstate) : Amp := s.c0.normSq

/-- Born probability of measuring outcome 1. -/
noncomputable def prob_one (s : Qstate) : ℝ :=
  (prob_one_num s).toReal / 2 ^ s.m

/-- Born probability of measuring outcome 0. -/
noncomputable def prob_zero (s : Qstate) : ℝ :=
  (prob_zero_num s).toReal / 2 ^ s.m

/-- `measured_bit = int(max(counts, key=counts.get))`: the simulator runs
shots of the circuit and the code keeps the majority outcome.  When the
Born probability of an outcome is 1 (numerator `2^m`, by
`Amp.toReal_injective` the only representation) the result is that outcome
on every shot; otherwise (in this program the only other case is the
1/2–1/2 state) the majority over shots is a random bit, supplied by the
oracle `r`. -/
def measureState (s : Qstate) (r : Bool) : ℕ :=
  if prob_one_num s = ⟨2 ^ s.m, 0⟩ then 1
  else if prob_one_num s = ⟨0, 0⟩ then 0
  else if r then 1 else 0

/-- `if basis == 1: qc.h(0)` — the basis-change step before measurement. -/
def basis_change (basis : ℕ) : List Gate :=
  if basis = 1 then [Gate.H] else []

/-- Measure a received circuit in the given basis (append H when the basis
is diagonal, then measure), with `r` the oracle for the random case. -/
def measured_bit (qc : List Gate) (basis : ℕ) (r : Bool) : ℕ :=
  measureState (runCircuit (qc ++ basis_change basis)) r

/-- One qubit of `prepare_qubits`: `X` if the bit is 1, then `H` if the
basis is 1.  Also the shape of Eve's re-prepared circuit `eve_qc`. -/
def prepare_qubit (bit basis : ℕ) : List Gate :=
  (if bit = 1 then [Gate.X] else []) ++ basis_change basis

/-- `prepare_qubits`: Alice's circuits, one per position. -/
def prepare_qubits (alice_bits alice_bases : List ℕ) : List (List Gate) :=
  (alice_bits.zip alice_bases).map fun p => prepare_qubit p.1 p.2

/-- One iteration of `eve_intercepts`: Eve measures the intercepted
circuit in her basis and re-prepares a fresh qubit from the outcome. -/
def eve_intercept_one (qc : List Gate) (eve_basis : ℕ) (r : Bool) :
    ℕ × List Gate :=
  let m := measured_bit qc eve_basis r
  (m, prepare_qubit m eve_basis)

/-- `eve_intercepts`: the tampered circuits Eve forwards to Bob
(her bases and measurement randomness are oracle inputs). -/
def eve_intercepts (circuits : List (List Gate)) (eve_bases : List ℕ)
    (rs : List Bool) : List (List Gate) :=
  (circuits.zip (eve_bases.zip rs)).map fun p =>
    (eve_intercept_one p.1 p.2.1 p.2.2).2

/-- `bob_measures`: Bob's measured bits (his bases and measurement
randomness are oracle inputs). -/
def bob_measures (circuits : List (List Gate)) (bob_bases : List ℕ)
    (rs : List Bool) : List ℕ :=
  (circuits.zip (bob_bases.zip rs)).map fun p =>
    measured_bit p.1 p.2.1 p.2.2

/-- `reconcile_bases`'s core: `np.where(alice_bases == bob_bases)[0]`
followed by fancy indexing keeps, in ascending position order, the bits at
positions where the two basis arrays agree. -/
def sift : List ℕ → List ℕ → List ℕ → List ℕ
  | a :: as, b :: bs, x :: xs =>
      if a = b then x :: sift as bs xs else sift as bs xs
  | _, _, _ => []

/-- `reconcile_bases`: the sifted keys of Alice and Bob. -/
def reconcile_bases (alice_bases bob_bases alice_bits bob_bits : List ℕ) :
    List ℕ × List ℕ :=
  (sift alice_bases bob_bases alice_bits,
   sift alice_bases bob_bases bob_bits)

/-- `check_correct_bases`: the elementwise `alice_bases == bob_bases`. -/
def check_correct_bases (alice_bases bob_bases : List ℕ) : List Bool :=
  List.zipWith (fun a b => decide (a = b)) alice_bases bob_bases

/-- `create_correct_bits`: Bob's bit where the bases matched, the sentinel
`-1` elsewhere. -/
def create_correct_bits (bob_bits : List ℕ) (correct_bases : List Bool) :
    List ℤ :=
  List.zipWith (fun (bit : ℕ) (correct : Bool) =>
    if correct then (bit : ℤ) else -1) bob_bits correct_bases

/-- `valid_indices`: positions of `correct_bits` holding a real bit
(sentinel excluded) — the population `np.random.choice` samples from. -/
def valid_indices (correct_bits : List ℤ) : List ℕ :=
  (List.range correct_bits.length).filter
    fun i => decide (correct_bits.getD i (-1) ≠ -1)

/-- The error `np.random.choice` can raise. -/
inductive SamplingError
  | emptyPopulation
  | sampleLargerThanPopulation
deriving DecidableEq, Repr

/-- `np.random.choice(pop, k, replace=False)`.  numpy raises when the
population is empty yet samples are requested, or when more samples than
the population are requested without replacement; otherwise it returns the
drawn sample, supplied here as the oracle `sel`. -/
def np_choice (pop : List ℕ) (k : ℕ) (sel : List ℕ) :
    Except SamplingError (List ℕ) :=
  if pop.length = 0 ∧ k ≠ 0 then .error .emptyPopulation
  else if pop.length < k then .error .sampleLargerThanPopulation
  else .ok sel

/-- The write loop of `randomly_store_half`: start from `[-1] * len` and
copy `correct_bits[index]` at each selected index. -/
def store_half (correct_bits : List ℤ) (sel : List ℕ) : List ℤ :=
  (List.range correct_bits.length).map
    fun i => if i ∈ sel then correct_bits.getD i (-1) else -1

/-- `randomly_store_half`: sample `len(valid_indices) // 2` of the valid
positions without replacement and disclose the bits there. -/
def randomly_store_half (correct_bits : List ℤ) (sel : List ℕ) :
    Except SamplingError (List ℤ) :=
  match np_choice (valid_indices correct_bits)
      ((valid_indices correct_bits).length / 2) sel with
  | .error e => .error e
  | .ok s => .ok (store_half correct_bits s)

/-- Alice's three-way verdict per position: `'T'`, `'F'`, `' '`. -/
inductive Verdict
  | T
  | F
  | blank
deriving DecidableEq, Repr

/-- `confirm_by_alice`: `'T'` if the disclosed bit equals Alice's bit,
`'F'` if a bit was disclosed but differs, `' '` if nothing was disclosed. -/
def confirm_by_alice (alice_bits : List ℕ) (half_correct_bits : List ℤ) :
    List Verdict :=
  List.zipWith (fun (abit : ℕ) (bit : ℤ) =>
      if bit = (abit : ℤ) then Verdict.T
      else if bit ≠ -1 then Verdict.F
      else Verdict.blank)
    alice_bits half_correct_bits

/-- `create_outcome`: keep `correct_bits[i]` where nothing was disclosed,
the sentinel where the bit was disclosed (or was already the sentinel). -/
def create_outcome (correct_bits half_correct_bits : List ℤ) : List ℤ :=
  List.zipWith (fun (bit : ℤ) (half : ℤ) => if half = -1 then bit else -1)
    correct_bits half_correct_bits

/-- `calculate_eavesdropping_ratio`: count of `'F'` verdicts over the
module-level `num_qubits`, times 100. -/
def calculate_eavesdropping_ratio (confirmed_by_alice : List Verdict)
    (num_qubits : ℕ) : ℚ :=
  ((confirmed_by_alice.count Verdict.F : ℚ) / (num_qubits : ℚ)) * 100

/-- The random draws one `collect_data` run consumes, passed as oracles:
the two numpy arrays of Alice, Eve's bases and per-position measurement
randomness, Bob's bases and per-position measurement randomness, and the
check-subset selection of `np.random.choice`. -/
structure Rand where
  alice_bits : List ℕ
  alice_bases : List ℕ
  eve_bases : List ℕ
  eve_rs : List Bool
  bob_bases : List ℕ
  bob_rs : List Bool
  sel : List ℕ
deriving DecidableEq, Repr

/-- The dictionary `collect_data` returns. -/
structure SessionData where
  alice_bits : List ℕ
  alice_bases : List ℕ
  eve_bases : Option (List ℕ)
  bob_bases : List ℕ
  bob_bits : List ℕ
  alice_shared_key : List ℕ
  bob_shared_key : List ℕ
  correct_bases : List Bool
  correct_bits : List ℤ
  half_correct_bits : List ℤ
  confirmed_by_alice : List Verdict
  outcome : List ℤ
  eavesdropping_ratio : ℚ
deriving DecidableEq, Repr

/-- `collect_data`: one full protocol session.  `num_qubits` is the
module-level constant the source reads at every step. -/
def collect_data (num_qubits : ℕ) (eavesdropping_enabled : Bool)
    (rnd : Rand) : Except SamplingError SessionData :=
  let circuits := prepare_qubits rnd.alice_bits rnd.alice_bases
  let circuits2 := if eavesdropping_enabled
    then eve_intercepts circuits rnd.eve_bases rnd.eve_rs
    else circuits
  let bob_bits := bob_measures circuits2 rnd.bob_bases rnd.bob_rs
  let keys := reconcile_bases rnd.alice_bases rnd.bob_bases
    rnd.alice_bits bob_bits
  let correct_bases := check_correct_bases rnd.alice_bases rnd.bob_bases
  let correct_bits := create_correct_bits bob_bits correct_bases
  match randomly_store_half correct_bits rnd.sel with
  | .error e => .error e
  | .ok half =>
      let confirmed := confirm_by_alice rnd.alice_bits half
      .ok
        { alice_bits := rnd.alice_bits
          alice_bases := rnd.alice_bases
          eve_bases := if eavesdropping_enabled then some rnd.eve_bases else none
          bob_bases := rnd.bob_bases
          bob_bits := bob_bits
          alice_shared_key := keys.1
          bob_shared_key := keys.2
          correct_bases := correct_bases
          correct_bits := correct_bits
          half_correct_bits := half
          confirmed_by_alice := confirmed
          outcome := create_outcome correct_bits half
          eavesdropping_ratio := calculate_eavesdropping_ratio confirmed num_qubits }

/-- The 2×2 contingency table `run_tests` accumulates. -/
structure TestResults where
  true_detected : ℕ
  true_non_detected : ℕ
  false_detected : ℕ
  false_non_detected : ℕ
deriving DecidableEq, Repr

/-- One update of the `results` dictionary. -/
def tally (acc : TestResults) (enabled detected : Bool) : TestResults :=
  if enabled then
    if detected then { acc with true_detected := acc.true_detected + 1 }
    else { acc with true_non_detected := acc.true_non_detected + 1 }
  else
    if detected then { acc with false_detected := acc.false_detected + 1 }
    else { acc with false_non_detected := acc.false_non_detected + 1 }

/-- The trial loop of `run_tests`: each trial draws a coin for
`eavesdropping_enabled` and fresh session randomness (both oracles here),
runs `collect_data`, and tallies `ratio > 0`; an exception aborts the run. -/
def run_trials (num_qubits : ℕ) :
    List (Bool × Rand) → TestResults → Except SamplingError TestResults
  | [], acc => .ok acc
  | (enabled, rnd) :: rest, acc =>
      match collect_data num_qubits enabled rnd with
      | .error e => .error e
      | .ok d =>
          run_trials num_qubits rest
            (tally acc enabled (decide (0 < d.eavesdropping_ratio)))

/-- `run_tests`: `for _ in range(num_tests)` runs `num_tests.toNat` trials
(non-positive `num_tests` gives an empty range), with `gen` supplying each
trial's random draws. -/
def run_tests (num_qubits : ℕ) (num_tests : ℤ) (gen : ℕ → Bool × Rand) :
    Except SamplingError TestResults :=
  run_trials num_qubits ((List.range num_tests.toNat).map gen) ⟨0, 0, 0, 0⟩

/-- Spec-side definition (for the refinement claims about sifting): the
positions with matching bases, in ascending order — the spec's
"matching indices". -/
def matching_indices (alice_bases bob_bases : List ℕ) : List ℕ :=
  (List.range alice_bases.length).filter
    fun i => decide (alice_bases.getD i 0 = bob_bases.getD i 0)

/-- The session record `collect_data` produces, written out field by field
(`collect_data_eq` below proves `collect_data` always returns it). -/
def session (num_qubits : ℕ) (eavesdropping_enabled : Bool) (rnd : Rand) :
    SessionData :=
  let circuits := prepare_qubits rnd.alice_bits rnd.alice_bases
  let circuits2 := if eavesdropping_enabled
    then eve_intercepts circuits rnd.eve_bases rnd.eve_rs
    else circuits
  let bob_bits := bob_measures circuits2 rnd.bob_bases rnd.bob_rs
  let correct_bases := check_correct_bases rnd.alice_bases rnd.bob_bases
  let correct_bits := create_correct_bits bob_bits correct_bases
  let half := store_half correct_bits rnd.sel
  let confirmed := confirm_by_alice rnd.alice_bits half
  { alice_bits := rnd.alice_bits
    alice_bases := rnd.alice_bases
    eve_bases := if eavesdropping_enabled then some rnd.eve_bases else none
    bob_bases := rnd.bob_bases
    bob_bits := bob_bits
    alice_shared_key := sift rnd.alice_bases rnd.bob_bases rnd.alice_bits
    bob_shared_key := sift rnd.alice_bases rnd.bob_bases bob_bits
    correct_bases := correct_bases
    correct_bits := correct_bits
    half_correct_bits := half
    confirmed_by_alice := confirmed
    outcome := create_outcome correct_bits half
    eavesdropping_ratio := calculate_eavesdropping_ratio confirmed num_qubits }

/-- A concrete draw of all the session randomness, with Eve present and
choosing the same bases as Alice — the lucky-interception scenario. -/
def demoRand : Rand :=
  { alice_bits := [1, 0]
    alice_bases := [0, 1]
    eve_bases := [0, 1]
    eve_rs := [false, false]
    bob_bases := [0, 1]
    bob_rs := [false, false]
    sel := [0] }

/-- The session record the run on `demoRand` produces. -/
def demoData : SessionData :=
  { alice_bits := [1, 0]
    alice_bases := [0, 1]
    eve_bases := some [0, 1]
    bob_bases := [0, 1]
    bob_bits := [1, 0]
    alice_shared_key := [1, 0]
    bob_shared_key := [1, 0]
    correct_bases := [true, true]
    correct_bits := [1, 0]
    half_correct_bits := [1, -1]
    confirmed_by_alice := [Verdict.T, Verdict.blank]
    outcome := [-1, 0]
    eavesdropping_ratio := calculate_eavesdropping_ratio [Verdict.T, Verdict.blank] 2 }

/-- An inert randomness record (used for trial generators that are never
invoked). -/
def emptyRand : Rand :=
  { alice_bits := []
    alice_bases := []
    eve_bases := []
    eve_rs := []
    bob_bases := []
    bob_rs := []
    sel := [] }

/-! ## Supporting lemmas -/

/-- Matching-basis measurement of a freshly prepared qubit is exact:
the engine returns the prepared bit for every value of the randomness
oracle. -/
theorem measured_bit_prepare_matching (b s : ℕ) (r : Bool)
    (hb : b ≤ 1) (hs : s ≤ 1) :
    measured_bit (prepare_qubit b s) s r = b := by
  interval_cases b <;> interval_cases s <;> cases r <;> rfl

/-- In the mismatched-basis case the pre-measurement state has
`m = 1` and both Born numerators equal to 1, i.e. both outcomes have
probability 1/2. -/
theorem mismatch_state_num (b s s' : ℕ)
    (hb : b ≤ 1) (hs : s ≤ 1) (hs' : s' ≤ 1) (hne : s ≠ s') :
    prob_zero_num (runCircuit (prepare_qubit b s ++ basis_change s')) = ⟨1, 0⟩ ∧
    prob_one_num (runCircuit (prepare_qubit b s ++ basis_change s')) = ⟨1, 0⟩ ∧
    (runCircuit (prepare_qubit b s ++ basis_change s')).m = 1 := by
  interval_cases b <;> interval_cases s <;> interval_cases s' <;>
    first
    | exact absurd rfl hne
    | exact ⟨rfl, rfl, rfl⟩

/-! ## Claim theorems -/

/-- C1: for every bit `b` and basis `s` in {0,1}, measuring a qubit
prepared as `(b, s)` in the same basis `s` returns `b` on every call
(every value of the randomness oracle `r`): matching-basis measurement is
deterministic and exact. -/
theorem measure_matching_basis_deterministic (b s : ℕ) (r : Bool)
    (hb : b ≤ 1) (hs : s ≤ 1) :
    measured_bit (prepare_qubit b s) s r = b :=
  measured_bit_prepare_matching b s r hb hs

theorem measure_matching_basis_deterministic_witness :
    measured_bit (prepare_qubit 1 1) 1 true = 1 ∧
    measured_bit (prepare_qubit 0 1) 1 false = 0 :=
  ⟨measure_matching_basis_deterministic 1 1 true (by decide) (by decide),
   measure_matching_basis_deterministic 0 1 false (by decide) (by decide)⟩

/-- C2: for every prepared bit `b` and distinct bases `s ≠ s'`, the state
measured when a qubit prepared as `(b, s)` is read out in basis `s'` gives
Born probability exactly 1/2 to each outcome; the value 1/2 does not
depend on `b`, so the outcome distribution carries no information about
the prepared bit. -/
theorem measure_mismatched_basis_uniform (b s s' : ℕ)
    (hb : b ≤ 1) (hs : s ≤ 1) (hs' : s' ≤ 1) (hne : s ≠ s') :
    prob_zero (runCircuit (prepare_qubit b s ++ basis_change s')) = 1 / 2 ∧
    prob_one (runCircuit (prepare_qubit b s ++ basis_change s')) = 1 / 2 := by
  obtain ⟨h0, h1, hm⟩ := mismatch_state_num b s s' hb hs hs' hne
  constructor
  · simp only [prob_zero, h0, hm, Amp.toReal]
    norm_num
  · simp only [prob_one, h1, hm, Amp.toReal]
    norm_num

theorem measure_mismatched_basis_uniform_witness :
    prob_zero (runCircuit (prepare_qubit 0 0 ++ basis_change 1)) = 1 / 2 ∧
    prob_one (runCircuit (prepare_qubit 0 0 ++ basis_change 1)) = 1 / 2 :=
  measure_mismatched_basis_uniform 0 0 1 (by decide) (by decide) (by decide)
    (by decide)

theorem matching_indices_nil : matching_indices [] [] = [] := rfl

theorem matching_indices_cons (a b : ℕ) (as bs : List ℕ) :
    matching_indices (a :: as) (b :: bs) =
      (if a = b then [0] else []) ++ (matching_indices as bs).map Nat.succ := by
  have hfun : ((fun i => decide ((a :: as).getD i 0 = (b :: bs).getD i 0)) ∘ Nat.succ)
      = fun i => decide (as.getD i 0 = bs.getD i 0) := by
    funext i
    simp [Function.comp, List.getD_cons_succ]
  simp only [matching_indices, List.length_cons, List.range_succ_eq_map,
    List.filter_cons, List.getD_cons_zero, List.filter_map, hfun]
  by_cases hab : a = b <;> simp [hab]

/-- `sift` keeps exactly the bits at matching positions, ascending. -/
theorem sift_eq_map_matching :
    ∀ (ab bb bits : List ℕ), bb.length = ab.length → bits.length = ab.length →
      sift ab bb bits = (matching_indices ab bb).map fun i => bits.getD i 0 := by
  intro ab
  induction ab with
  | nil =>
      intro bb bits h1 h2
      rw [List.length_nil, List.length_eq_zero] at h1 h2
      subst h1; subst h2
      rfl
  | cons a as ih =>
      intro bb bits h1 h2
      match bb, bits with
      | [], _ => simp at h1
      | _ :: _, [] => simp at h2
      | b :: bs, x :: xs =>
        simp only [List.length_cons, Nat.add_right_cancel_iff] at h1 h2
        rw [matching_indices_cons, List.map_append, List.map_map]
        have hmap : ((matching_indices as bs).map
            ((fun i => (x :: xs).getD i 0) ∘ Nat.succ)) =
            (matching_indices as bs).map fun i => xs.getD i 0 := by
          simp [Function.comp]
        by_cases hab : a = b
        · simp only [hab, if_true, List.map_cons, List.map_nil]
          rw [hmap, ← ih bs xs h1 h2]
          simp [sift, List.getD_cons_zero]
        · simp only [hab, if_false, List.map_nil, List.nil_append]
          rw [hmap, ← ih bs xs h1 h2]
          simp [sift, hab]

/-- C3: the sifted keys are exactly Alice's and Bob's bits at the
positions where the two basis lists agree, in ascending position order,
and both have length equal to the number of matching positions. -/
theorem sifted_keys_characterization (ab bb abits bbits : List ℕ)
    (h1 : bb.length = ab.length) (h2 : abits.length = ab.length)
    (h3 : bbits.length = ab.length) :
    (reconcile_bases ab bb abits bbits).1 =
      ((matching_indices ab bb).map fun i => abits.getD i 0) ∧
    (reconcile_bases ab bb abits bbits).2 =
      ((matching_indices ab bb).map fun i => bbits.getD i 0) ∧
    (reconcile_bases ab bb abits bbits).1.length = (matching_indices ab bb).length ∧
    (reconcile_bases ab bb abits bbits).2.length = (matching_indices ab bb).length ∧
    (matching_indices ab bb).length =
      (List.range ab.length).countP
        (fun i => decide (ab.getD i 0 = bb.getD i 0)) := by
  have e1 := sift_eq_map_matching ab bb abits h1 h2
  have e2 := sift_eq_map_matching ab bb bbits h1 h3
  refine ⟨e1, e2, ?_, ?_, ?_⟩
  · show (sift ab bb abits).length = _
    rw [e1, List.length_map]
  · show (sift ab bb bbits).length = _
    rw [e2, List.length_map]
  · rw [matching_indices, List.countP_eq_length_filter]

theorem sifted_keys_characterization_witness :
    (reconcile_bases [0,1,0,1] [0,1,1,1] [1,0,1,1] [1,0,0,1]).1 =
      ((matching_indices [0,1,0,1] [0,1,1,1]).map fun i => [1,0,1,1].getD i 0) ∧
    (reconcile_bases [0,1,0,1] [0,1,1,1] [1,0,1,1] [1,0,0,1]).2 =
      ((matching_indices [0,1,0,1] [0,1,1,1]).map fun i => [1,0,0,1].getD i 0) ∧
    (reconcile_bases [0,1,0,1] [0,1,1,1] [1,0,1,1] [1,0,0,1]).1.length =
      (matching_indices [0,1,0,1] [0,1,1,1]).length ∧
    (reconcile_bases [0,1,0,1] [0,1,1,1] [1,0,1,1] [1,0,0,1]).2.length =
      (matching_indices [0,1,0,1] [0,1,1,1]).length ∧
    (matching_indices [0,1,0,1] [0,1,1,1]).length =
      (List.range 4).countP (fun i => decide ([0,1,0,1].getD i 0 = [0,1,1,1].getD i 0)) := by
  have h := sifted_keys_characterization [0,1,0,1] [0,1,1,1] [1,0,1,1] [1,0,0,1]
    rfl rfl rfl
  exact ⟨h.1, h.2.1, h.2.2.1, h.2.2.2.1, by decide⟩

/-- `np.random.choice(valid, len(valid) // 2, replace=False)` never hits
either of numpy's error conditions: the requested size is `len // 2`,
which is 0 when the population is empty and never exceeds the population
size.  Hence `randomly_store_half` always succeeds. -/
theorem randomly_store_half_ok (cb : List ℤ) (sel : List ℕ) :
    randomly_store_half cb sel = Except.ok (store_half cb sel) := by
  have h1 : ¬((valid_indices cb).length = 0 ∧ (valid_indices cb).length / 2 ≠ 0) := by
    omega
  have h2 : ¬((valid_indices cb).length < (valid_indices cb).length / 2) := by
    omega
  simp only [randomly_store_half, np_choice, if_neg h1, if_neg h2]

/-- `collect_data` always succeeds and returns the `session` record. -/
theorem collect_data_eq (nq : ℕ) (e : Bool) (rnd : Rand) :
    collect_data nq e rnd = Except.ok (session nq e rnd) := by
  simp only [collect_data, session, randomly_store_half_ok, reconcile_bases]

/-- Without Eve, sifting Bob's measured bits gives exactly Alice's sifted
bits: at every matching position Bob's matching-basis measurement of
Alice's freshly prepared qubit returns Alice's bit. -/
theorem sift_bob_no_eve (ab : List ℕ) :
    ∀ (abits bb : List ℕ) (rs : List Bool),
      abits.length = ab.length → bb.length = ab.length → rs.length = ab.length →
      (∀ x ∈ abits, x ≤ 1) → (∀ x ∈ ab, x ≤ 1) →
      sift ab bb (bob_measures (prepare_qubits abits ab) bb rs) = sift ab bb abits := by
  induction ab with
  | nil =>
      intro abits bb rs h1 h2 h3 _ _
      rw [List.length_nil, List.length_eq_zero] at h1 h2
      subst h1; subst h2
      rfl
  | cons a as ih =>
      intro abits bb rs h1 h2 h3 hv1 hv2
      match abits, bb, rs with
      | [], _, _ => simp at h1
      | _ :: _, [], _ => simp at h2
      | _ :: _, _ :: _, [] => simp at h3
      | x :: xs, b :: bs, r :: rs' =>
        simp only [List.length_cons, Nat.add_right_cancel_iff] at h1 h2 h3
        have hx : x ≤ 1 := hv1 x (List.mem_cons_self x xs)
        have ha : a ≤ 1 := hv2 a (List.mem_cons_self a as)
        have hv1' : ∀ y ∈ xs, y ≤ 1 := fun y hy => hv1 y (List.mem_cons_of_mem _ hy)
        have hv2' : ∀ y ∈ as, y ≤ 1 := fun y hy => hv2 y (List.mem_cons_of_mem _ hy)
        have hcons : bob_measures (prepare_qubits (x :: xs) (a :: as)) (b :: bs) (r :: rs')
            = measured_bit (prepare_qubit x a) b r
              :: bob_measures (prepare_qubits xs as) bs rs' := rfl
        have hsift : ∀ (y : ℕ) (ys : List ℕ),
            sift (a :: as) (b :: bs) (y :: ys)
              = if a = b then y :: sift as bs ys else sift as bs ys :=
          fun y ys => rfl
        rw [hcons, hsift, hsift]
        by_cases hab : a = b
        · subst hab
          rw [if_pos rfl, if_pos rfl,
            measured_bit_prepare_matching x a r hx ha,
            ih xs bs rs' h1 h2 h3 hv1' hv2']
        · rw [if_neg hab, if_neg hab]
          exact ih xs bs rs' h1 h2 h3 hv1' hv2'

/-- C4: with eavesdropping disabled the sifted keys agree — as whole lists
and hence at every sifted position (there is no noise model and
matching-basis measurement is exact). -/
theorem no_eavesdropping_keys_agree (nq : ℕ) (rnd : Rand) (d : SessionData)
    (h1 : rnd.alice_bits.length = nq) (h2 : rnd.alice_bases.length = nq)
    (h3 : rnd.bob_bases.length = nq) (h4 : rnd.bob_rs.length = nq)
    (hv1 : ∀ x ∈ rnd.alice_bits, x ≤ 1) (hv2 : ∀ x ∈ rnd.alice_bases, x ≤ 1)
    (h : collect_data nq false rnd = Except.ok d) :
    d.alice_shared_key = d.bob_shared_key ∧
    ∀ i, d.alice_shared_key.getD i 0 = d.bob_shared_key.getD i 0 := by
  rw [collect_data_eq] at h
  have hd := Except.ok.inj h
  subst hd
  have hkeys : (session nq false rnd).alice_shared_key
      = (session nq false rnd).bob_shared_key := by
    show sift rnd.alice_bases rnd.bob_bases rnd.alice_bits
        = sift rnd.alice_bases rnd.bob_bases
            (bob_measures (prepare_qubits rnd.alice_bits rnd.alice_bases)
              rnd.bob_bases rnd.bob_rs)
    exact (sift_bob_no_eve rnd.alice_bases rnd.alice_bits rnd.bob_bases rnd.bob_rs
      (h1.trans h2.symm) (h3.trans h2.symm) (h4.trans h2.symm) hv1 hv2).symm
  exact ⟨hkeys, fun i => by rw [hkeys]⟩

theorem no_eavesdropping_keys_agree_witness :
    (session 2 false demoRand).alice_shared_key
      = (session 2 false demoRand).bob_shared_key :=
  (no_eavesdropping_keys_agree 2 demoRand (session 2 false demoRand)
    rfl rfl rfl rfl (by decide) (by decide) (collect_data_eq 2 false demoRand)).1

/-- C5: the eavesdropping ratio equals the count of discrepancy (`'F'`)
verdicts divided by `num_qubits` — the total transmission length, not the
number of disclosed check bits — times 100. -/
theorem eavesdropping_ratio_formula (nq : ℕ) (e : Bool) (rnd : Rand)
    (d : SessionData) (h : collect_data nq e rnd = Except.ok d) :
    d.eavesdropping_ratio
      = ((d.confirmed_by_alice.count Verdict.F : ℚ) / ((nq : ℕ) : ℚ)) * 100 := by
  rw [collect_data_eq] at h
  have hd := Except.ok.inj h
  subst hd
  rfl

theorem eavesdropping_ratio_formula_witness :
    demoData.eavesdropping_ratio
      = ((demoData.confirmed_by_alice.count Verdict.F : ℚ) / ((2 : ℕ) : ℚ)) * 100 :=
  eavesdropping_ratio_formula 2 true demoRand demoData rfl

/-- Without Eve, no disclosed check bit can disagree with Alice's bit:
every verdict is `'T'` or `' '`, never `'F'`. -/
theorem confirm_no_F_no_eve (abits ab bb : List ℕ) (rs : List Bool) (sel : List ℕ)
    (h1 : ab.length = abits.length) (h2 : bb.length = abits.length)
    (h3 : rs.length = abits.length)
    (hv1 : ∀ x ∈ abits, x ≤ 1) (hv2 : ∀ x ∈ ab, x ≤ 1) :
    Verdict.F ∉ confirm_by_alice abits
      (store_half (create_correct_bits
        (bob_measures (prepare_qubits abits ab) bb rs)
        (check_correct_bases ab bb)) sel) := by
  intro hmem
  obtain ⟨i, hi, hF⟩ := List.mem_iff_getElem.mp hmem
  have hlc : (prepare_qubits abits ab).length = abits.length := by
    simp [prepare_qubits, h1]
  have hlb : (bob_measures (prepare_qubits abits ab) bb rs).length
      = abits.length := by
    simp [bob_measures, hlc, h2, h3]
  have hlcbs : (check_correct_bases ab bb).length = abits.length := by
    simp [check_correct_bases, h1, h2]
  have hlcb : (create_correct_bits
      (bob_measures (prepare_qubits abits ab) bb rs)
      (check_correct_bases ab bb)).length = abits.length := by
    simp [create_correct_bits, hlb, hlcbs]
  have hlh : (store_half (create_correct_bits
      (bob_measures (prepare_qubits abits ab) bb rs)
      (check_correct_bases ab bb)) sel).length = abits.length := by
    simp [store_half, hlcb]
  rw [confirm_by_alice, List.length_zipWith] at hi
  have hia : i < abits.length := lt_of_lt_of_le hi (Nat.min_le_left _ _)
  have hih : i < (store_half (create_correct_bits
      (bob_measures (prepare_qubits abits ab) bb rs)
      (check_correct_bases ab bb)) sel).length := by omega
  have hicb : i < (create_correct_bits
      (bob_measures (prepare_qubits abits ab) bb rs)
      (check_correct_bases ab bb)).length := by omega
  have hibob : i < (bob_measures (prepare_qubits abits ab) bb rs).length := by
    omega
  have hicbs : i < (check_correct_bases ab bb).length := by omega
  have hiab : i < ab.length := by omega
  have hibb : i < bb.length := by omega
  have hirs : i < rs.length := by omega
  simp only [confirm_by_alice, List.getElem_zipWith] at hF
  -- the disclosed value at position i
  have hhalf : (store_half (create_correct_bits
        (bob_measures (prepare_qubits abits ab) bb rs)
        (check_correct_bases ab bb)) sel)[i]
      = if i ∈ sel
        then (create_correct_bits
          (bob_measures (prepare_qubits abits ab) bb rs)
          (check_correct_bases ab bb)).getD i (-1)
        else -1 := by
    simp [store_half]
  have hcbval : (create_correct_bits
        (bob_measures (prepare_qubits abits ab) bb rs)
        (check_correct_bases ab bb))[i]
      = if (check_correct_bases ab bb)[i]
        then (((bob_measures (prepare_qubits abits ab) bb rs)[i] : ℕ) : ℤ)
        else -1 := by
    simp [create_correct_bits, List.getElem_zipWith]
  by_cases hisel : i ∈ sel
  · rw [if_pos hisel, List.getD_eq_getElem _ _ hicb, hcbval] at hhalf
    by_cases hcbi : (check_correct_bases ab bb)[i]
    · rw [if_pos hcbi] at hhalf
      have hmatch : ab[i] = bb[i] := by
        simp only [check_correct_bases, List.getElem_zipWith] at hcbi
        exact of_decide_eq_true hcbi
      have hbob : (bob_measures (prepare_qubits abits ab) bb rs)[i]
          = measured_bit (prepare_qubit abits[i] ab[i]) bb[i] rs[i] := by
        simp [bob_measures, prepare_qubits, List.getElem_zipWith,
          List.getElem_map, List.getElem_zip]
      have habit : abits[i] ≤ 1 := hv1 _ (List.getElem_mem hia)
      have habase : ab[i] ≤ 1 := hv2 _ (List.getElem_mem hiab)
      have hexact : (bob_measures (prepare_qubits abits ab) bb rs)[i]
          = abits[i] := by
        rw [hbob, ← hmatch]
        exact measured_bit_prepare_matching _ _ _ habit habase
      rw [hexact] at hhalf
      rw [hhalf] at hF
      simp at hF
    · rw [if_neg hcbi] at hhalf
      rw [hhalf] at hF
      simp at hF
  · rw [if_neg hisel] at hhalf
    rw [hhalf] at hF
    simp at hF

/-- C6: the eavesdropping ratio always lies in [0, 100], and with
eavesdropping disabled it is 0 with certainty, so a run without an
eavesdropper is never classified as detected (the detection rule being
`ratio > 0`): no false positives. -/
theorem eavesdropping_ratio_bounds (nq : ℕ) (e : Bool) (rnd : Rand)
    (d : SessionData) (hnq : 0 < nq)
    (h1 : rnd.alice_bits.length = nq) (h2 : rnd.alice_bases.length = nq)
    (h3 : rnd.bob_bases.length = nq) (h4 : rnd.bob_rs.length = nq)
    (hv1 : ∀ x ∈ rnd.alice_bits, x ≤ 1) (hv2 : ∀ x ∈ rnd.alice_bases, x ≤ 1)
    (h : collect_data nq e rnd = Except.ok d) :
    0 ≤ d.eavesdropping_ratio ∧ d.eavesdropping_ratio ≤ 100 ∧
      (e = false → d.eavesdropping_ratio = 0 ∧ ¬(0 < d.eavesdropping_ratio)) := by
  rw [collect_data_eq] at h
  have hd := Except.ok.inj h
  subst hd
  have hratio : (session nq e rnd).eavesdropping_ratio
      = ((session nq e rnd).confirmed_by_alice.count Verdict.F : ℚ)
        / ((nq : ℕ) : ℚ) * 100 := rfl
  have hlconf : (session nq e rnd).confirmed_by_alice.length ≤ nq := by
    show (confirm_by_alice rnd.alice_bits _).length ≤ nq
    rw [confirm_by_alice, List.length_zipWith]
    omega
  have hcount : ((session nq e rnd).confirmed_by_alice.count Verdict.F : ℚ)
      ≤ ((nq : ℕ) : ℚ) := by
    exact_mod_cast le_trans
      (List.count_le_length Verdict.F (session nq e rnd).confirmed_by_alice)
      hlconf
  have hnqQ : (0 : ℚ) < ((nq : ℕ) : ℚ) := by exact_mod_cast hnq
  refine ⟨?_, ?_, ?_⟩
  · rw [hratio]
    positivity
  · rw [hratio]
    have hdiv : ((session nq e rnd).confirmed_by_alice.count Verdict.F : ℚ)
        / ((nq : ℕ) : ℚ) ≤ 1 := (div_le_one hnqQ).mpr hcount
    have := mul_le_mul_of_nonneg_right hdiv (by norm_num : (0:ℚ) ≤ 100)
    simpa using this
  · intro he
    subst he
    have hnoF : Verdict.F ∉ (session nq false rnd).confirmed_by_alice := by
      have hfield : (session nq false rnd).confirmed_by_alice
          = confirm_by_alice rnd.alice_bits
              (store_half (create_correct_bits
                (bob_measures (prepare_qubits rnd.alice_bits rnd.alice_bases)
                  rnd.bob_bases rnd.bob_rs)
                (check_correct_bases rnd.alice_bases rnd.bob_bases)) rnd.sel) := rfl
      rw [hfield]
      exact confirm_no_F_no_eve rnd.alice_bits rnd.alice_bases rnd.bob_bases
        rnd.bob_rs rnd.sel (h2.trans h1.symm) (h3.trans h1.symm)
        (h4.trans h1.symm) hv1 hv2
    have hc0 : (session nq false rnd).confirmed_by_alice.count Verdict.F = 0 :=
      List.count_eq_zero.mpr hnoF
    have hz : (session nq false rnd).eavesdropping_ratio = 0 := by
      rw [hratio, hc0]
      norm_num
    exact ⟨hz, by rw [hz]; norm_num⟩

theorem eavesdropping_ratio_bounds_witness :
    0 ≤ (session 2 false demoRand).eavesdropping_ratio ∧
    (session 2 false demoRand).eavesdropping_ratio ≤ 100 ∧
    (false = false → (session 2 false demoRand).eavesdropping_ratio = 0 ∧
      ¬(0 < (session 2 false demoRand).eavesdropping_ratio)) :=
  eavesdropping_ratio_bounds 2 false demoRand (session 2 false demoRand)
    (by decide) rfl rfl rfl rfl (by decide) (by decide)
    (collect_data_eq 2 false demoRand)

theorem mem_valid_indices (l : List ℤ) (i : ℕ) :
    i ∈ valid_indices l ↔ i < l.length ∧ l.getD i (-1) ≠ -1 := by
  simp [valid_indices, List.mem_filter, List.mem_range]

theorem store_half_length (cb : List ℤ) (sel : List ℕ) :
    (store_half cb sel).length = cb.length := by
  simp [store_half]

theorem store_half_getD (cb : List ℤ) (sel : List ℕ) (i : ℕ)
    (hi : i < cb.length) :
    (store_half cb sel).getD i (-1)
      = if i ∈ sel then cb.getD i (-1) else -1 := by
  rw [List.getD_eq_getElem _ _ (by rw [store_half_length]; exact hi)]
  simp [store_half]

theorem create_outcome_length (cb half : List ℤ) :
    (create_outcome cb half).length = min cb.length half.length := by
  simp [create_outcome]

theorem create_outcome_getD (cb half : List ℤ) (i : ℕ)
    (hc : i < cb.length) (hh : i < half.length) :
    (create_outcome cb half).getD i (-1)
      = if half.getD i (-1) = -1 then cb.getD i (-1) else -1 := by
  rw [List.getD_eq_getElem _ _ (by rw [create_outcome_length]; omega),
    List.getD_eq_getElem _ _ hc, List.getD_eq_getElem _ _ hh]
  simp [create_outcome, List.getElem_zipWith]

/-- The disclosed positions are exactly the sampled ones. -/
theorem valid_store_half_iff (cb : List ℤ) (sel : List ℕ)
    (hsub : ∀ j ∈ sel, j ∈ valid_indices cb) (i : ℕ) :
    i ∈ valid_indices (store_half cb sel) ↔ i ∈ sel := by
  rw [mem_valid_indices, store_half_length]
  constructor
  · rintro ⟨hi, hne⟩
    rw [store_half_getD cb sel i hi] at hne
    by_cases hisel : i ∈ sel
    · exact hisel
    · simp [hisel] at hne
  · intro hisel
    have hvi := (mem_valid_indices cb i).mp (hsub i hisel)
    refine ⟨hvi.1, ?_⟩
    rw [store_half_getD cb sel i hvi.1]
    simpa [hisel] using hvi.2

/-- The residual positions are exactly the valid, non-sampled ones. -/
theorem valid_outcome_iff (cb : List ℤ) (sel : List ℕ)
    (hsub : ∀ j ∈ sel, j ∈ valid_indices cb) (i : ℕ) :
    i ∈ valid_indices (create_outcome cb (store_half cb sel))
      ↔ i ∈ valid_indices cb ∧ i ∉ sel := by
  rw [mem_valid_indices, create_outcome_length, store_half_length,
    Nat.min_self, mem_valid_indices]
  constructor
  · rintro ⟨hi, hne⟩
    rw [create_outcome_getD cb _ i hi (by rw [store_half_length]; exact hi),
      store_half_getD cb sel i hi] at hne
    by_cases hisel : i ∈ sel
    · exfalso
      have hvi := (mem_valid_indices cb i).mp (hsub i hisel)
      simp [hisel, hvi.2] at hne
    · refine ⟨⟨hi, ?_⟩, hisel⟩
      simpa [hisel] using hne
  · rintro ⟨⟨hi, hne⟩, hisel⟩
    refine ⟨hi, ?_⟩
    rw [create_outcome_getD cb _ i hi (by rw [store_half_length]; exact hi),
      store_half_getD cb sel i hi, if_neg hisel, if_pos rfl]
    exact hne

/-- The valid (non-sentinel) positions of `correct_bits` are exactly the
matching-basis positions. -/
theorem valid_correct_bits_iff (bobs ab bb : List ℕ) (i : ℕ)
    (h2 : bb.length = ab.length) (hlb : bobs.length = ab.length) :
    i ∈ valid_indices (create_correct_bits bobs (check_correct_bases ab bb))
      ↔ i < ab.length ∧ ab.getD i 0 = bb.getD i 0 := by
  rw [mem_valid_indices]
  have hl : (create_correct_bits bobs (check_correct_bases ab bb)).length
      = ab.length := by
    simp [create_correct_bits, check_correct_bases, h2, hlb]
  rw [hl]
  have hgd : ∀ hi : i < ab.length,
      (create_correct_bits bobs (check_correct_bases ab bb)).getD i (-1)
        = if ab.getD i 0 = bb.getD i 0 then ((bobs.getD i 0 : ℕ) : ℤ) else -1 := by
    intro hi
    have hib : i < bb.length := by omega
    have hibobs : i < bobs.length := by omega
    have hicbs : i < (check_correct_bases ab bb).length := by
      simp [check_correct_bases]; omega
    rw [List.getD_eq_getElem _ _ (by omega : i < (create_correct_bits bobs
        (check_correct_bases ab bb)).length),
      List.getD_eq_getElem _ _ hi, List.getD_eq_getElem _ _ hib,
      List.getD_eq_getElem _ _ hibobs]
    simp [create_correct_bits, check_correct_bases, List.getElem_zipWith]
  constructor
  · rintro ⟨hi, hne⟩
    refine ⟨hi, ?_⟩
    rw [hgd hi] at hne
    by_cases hm : ab.getD i 0 = bb.getD i 0
    · exact hm
    · rw [if_neg hm] at hne
      exact absurd rfl hne
  · rintro ⟨hi, hm⟩
    refine ⟨hi, ?_⟩
    rw [hgd hi]
    simp only [hm, if_true]
    omega

/-- C7: the valid positions of `correct_bits` are exactly the
matching-basis positions; the disclosed check positions are exactly the
sampled subset (`floor(n/2)` positions, `n` the number of matching
positions, sampled without replacement — the sample is the
`np.random.choice` oracle, constrained to its contract); the residual
outcome holds exactly the remaining matching-basis positions; disclosed
and residual positions are disjoint and their union is the matching-basis
positions. -/
theorem residual_exclusivity (nq : ℕ) (e : Bool) (rnd : Rand)
    (d : SessionData)
    (h1 : rnd.alice_bits.length = nq) (h2 : rnd.alice_bases.length = nq)
    (h3 : rnd.bob_bases.length = nq) (h4 : rnd.bob_rs.length = nq)
    (he1 : rnd.eve_bases.length = nq) (he2 : rnd.eve_rs.length = nq)
    (h : collect_data nq e rnd = Except.ok d)
    (hsub : ∀ j ∈ rnd.sel, j ∈ valid_indices d.correct_bits)
    (hnd : rnd.sel.Nodup)
    (hk : rnd.sel.length = (valid_indices d.correct_bits).length / 2) :
    (∀ i, i ∈ valid_indices d.correct_bits
        ↔ i < nq ∧ rnd.alice_bases.getD i 0 = rnd.bob_bases.getD i 0) ∧
    (∀ i, i ∈ valid_indices d.half_correct_bits ↔ i ∈ rnd.sel) ∧
    (∀ i ∈ valid_indices d.half_correct_bits, i ∈ valid_indices d.correct_bits) ∧
    (valid_indices d.half_correct_bits).length
      = (valid_indices d.correct_bits).length / 2 ∧
    (∀ i, i ∈ valid_indices d.outcome
        ↔ i ∈ valid_indices d.correct_bits ∧ i ∉ rnd.sel) ∧
    (∀ i, ¬(i ∈ valid_indices d.half_correct_bits ∧ i ∈ valid_indices d.outcome)) ∧
    (∀ i, i ∈ valid_indices d.correct_bits
        ↔ (i ∈ valid_indices d.half_correct_bits ∨ i ∈ valid_indices d.outcome)) := by
  rw [collect_data_eq] at h
  have hd := Except.ok.inj h
  subst hd
  have hhalf : (session nq e rnd).half_correct_bits
      = store_half (session nq e rnd).correct_bits rnd.sel := rfl
  have hout : (session nq e rnd).outcome
      = create_outcome (session nq e rnd).correct_bits
          (store_half (session nq e rnd).correct_bits rnd.sel) := rfl
  have hmatch : ∀ i, i ∈ valid_indices (session nq e rnd).correct_bits
      ↔ i < nq ∧ rnd.alice_bases.getD i 0 = rnd.bob_bases.getD i 0 := by
    intro i
    have hcb : (session nq e rnd).correct_bits
        = create_correct_bits
            (bob_measures (if e
                then eve_intercepts (prepare_qubits rnd.alice_bits rnd.alice_bases)
                  rnd.eve_bases rnd.eve_rs
                else prepare_qubits rnd.alice_bits rnd.alice_bases)
              rnd.bob_bases rnd.bob_rs)
            (check_correct_bases rnd.alice_bases rnd.bob_bases) := rfl
    have hlb : (bob_measures (if e
        then eve_intercepts (prepare_qubits rnd.alice_bits rnd.alice_bases)
          rnd.eve_bases rnd.eve_rs
        else prepare_qubits rnd.alice_bits rnd.alice_bases)
        rnd.bob_bases rnd.bob_rs).length = rnd.alice_bases.length := by
      cases e <;>
        simp [bob_measures, eve_intercepts, prepare_qubits, h1, h2, h3, h4, he1, he2]
    rw [hcb, valid_correct_bits_iff _ _ _ i
      (h3.trans h2.symm) hlb, h2]
  have hiff1 := valid_store_half_iff (session nq e rnd).correct_bits rnd.sel hsub
  have hiff2 := valid_outcome_iff (session nq e rnd).correct_bits rnd.sel hsub
  refine ⟨hmatch, ?_, ?_, ?_, ?_, ?_, ?_⟩
  · intro i
    rw [hhalf]
    exact hiff1 i
  · intro i hi
    rw [hhalf] at hi
    exact hsub i ((hiff1 i).mp hi)
  · rw [hhalf, ← hk]
    have hnd1 : (valid_indices (store_half (session nq e rnd).correct_bits rnd.sel)).Nodup :=
      List.Nodup.filter _ (List.nodup_range _)
    have hperm := (List.perm_ext_iff_of_nodup hnd1 hnd).mpr hiff1
    exact hperm.length_eq
  · intro i
    rw [hout]
    exact hiff2 i
  · rintro i ⟨hh, ho⟩
    rw [hhalf] at hh
    rw [hout] at ho
    exact ((hiff2 i).mp ho).2 ((hiff1 i).mp hh)
  · intro i
    rw [hhalf, hout]
    constructor
    · intro hv
      by_cases hisel : i ∈ rnd.sel
      · exact Or.inl ((hiff1 i).mpr hisel)
      · exact Or.inr ((hiff2 i).mpr ⟨hv, hisel⟩)
    · rintro (hh | ho)
      · exact hsub i ((hiff1 i).mp hh)
      · exact ((hiff2 i).mp ho).1

theorem residual_exclusivity_witness :
    (valid_indices (session 2 true demoRand).half_correct_bits).length
      = (valid_indices (session 2 true demoRand).correct_bits).length / 2 :=
  (residual_exclusivity 2 true demoRand (session 2 true demoRand)
    rfl rfl rfl rfl rfl rfl (collect_data_eq 2 true demoRand)
    (by decide) (by decide) (by decide)).2.2.2.1

/-- C8 (counterexample): with an empty matching-basis subset (`[-1, -1]`
has no valid positions) the sampling step does not fail — it silently
succeeds, returning the all-sentinel list. -/
theorem sampling_error_counterexample :
    (valid_indices [-1, -1]).length = 0 ∧
    randomly_store_half [-1, -1] [] = Except.ok [-1, -1] :=
  ⟨rfl, rfl⟩

/-- C8 (amended): when the matching-basis subset is empty or has a single
usable position, the sample size floor-divides to 0, `np.random.choice`
returns the empty sample (numpy only raises when samples are requested
from an empty population, or more samples than the population without
replacement), and the sampling step silently succeeds with an empty
disclosed set — every bit stays private and no error is raised. -/
theorem small_subset_sampling_silent (cb : List ℤ) (sel : List ℕ)
    (h : (valid_indices cb).length < 2)
    (hsel : sel.length = (valid_indices cb).length / 2) :
    sel = [] ∧
    randomly_store_half cb sel = Except.ok (store_half cb sel) ∧
    valid_indices (store_half cb sel) = [] := by
  have hlen : sel.length = 0 := by omega
  have hnil : sel = [] := List.length_eq_zero.mp hlen
  subst hnil
  refine ⟨rfl, randomly_store_half_ok cb [], ?_⟩
  rw [valid_indices]
  apply List.filter_eq_nil_iff.mpr
  intro i hi
  rw [List.mem_range, store_half_length] at hi
  rw [store_half_getD cb [] i hi]
  simp

theorem small_subset_sampling_silent_witness :
    ([] : List ℕ) = [] ∧
    randomly_store_half [-1, 1] [] = Except.ok (store_half [-1, 1] []) ∧
    valid_indices (store_half [-1, 1] []) = [] :=
  small_subset_sampling_silent [-1, 1] [] (by decide) (by decide)

/-- C9 (counterexample): invoking the harness with non-positive
`num_tests` (0 or -5) is not rejected: no `InvalidConfiguration` error
exists, the loop simply runs zero trials and the all-zero contingency
table is returned normally. -/
theorem invalid_config_counterexample :
    run_tests 32 0 (fun _ => (false, emptyRand)) = Except.ok ⟨0, 0, 0, 0⟩ ∧
    run_tests 32 (-5) (fun _ => (false, emptyRand)) = Except.ok ⟨0, 0, 0, 0⟩ :=
  ⟨rfl, rfl⟩

/-- C9 (amended): the code performs no configuration validation:
`range(num_tests)` is empty for every non-positive `num_tests`, so
`run_tests` runs zero sessions and returns the all-zero contingency table
normally (and `collect_data` takes no `num_qubits` argument at all — it
reads the module-level constant). -/
theorem run_tests_nonpositive_empty (nq : ℕ) (nt : ℤ)
    (gen : ℕ → Bool × Rand) (h : nt ≤ 0) :
    run_tests nq nt gen = Except.ok ⟨0, 0, 0, 0⟩ := by
  rw [run_tests, Int.toNat_of_nonpos h]
  rfl

theorem run_tests_nonpositive_empty_witness :
    run_tests 32 (-7) (fun _ => (true, emptyRand)) = Except.ok ⟨0, 0, 0, 0⟩ :=
  run_tests_nonpositive_empty 32 (-7) (fun _ => (true, emptyRand)) (by decide)

/-- C10: detection of an enabled eavesdropper is not guaranteed: there are
random draws — here Eve choosing the same basis as Alice at every
position — under which a session run with eavesdropping enabled yields an
eavesdropping ratio of exactly 0 and is therefore classified as not
detected (`ratio > 0` fails). -/
theorem eve_can_evade_detection :
    ∃ (rnd : Rand) (d : SessionData),
      rnd.eve_bases = rnd.alice_bases ∧
      collect_data 2 true rnd = Except.ok d ∧
      d.eve_bases = some rnd.eve_bases ∧
      d.eavesdropping_ratio = 0 ∧
      ¬(0 < d.eavesdropping_ratio) := by
  have hz : demoData.eavesdropping_ratio = 0 := by
    show calculate_eavesdropping_ratio [Verdict.T, Verdict.blank] 2 = 0
    have hcount : List.count Verdict.F [Verdict.T, Verdict.blank] = 0 := rfl
    rw [calculate_eavesdropping_ratio, hcount]
    norm_num
  exact ⟨demoRand, demoData, rfl, rfl, rfl, hz, by rw [hz]; norm_num⟩

end BB84
